import Mathlib

/-!
Verification of the filepathfilter package (path include/exclude filtering).

The Go code is shallowly embedded: Go strings are modelled as lists of
characters (`GoStr`); for the ASCII paths and patterns appearing throughout
this development, Go's byte-level and rune-level operations coincide with
character-level operations on such lists.  The host platform is Unix, so
filepath.Separator is '/' and filepath.ListSeparator is ':'.
-/

set_option maxRecDepth 8000

namespace FilePathFilter

/-- Go strings, modelled as lists of characters. -/
abbrev GoStr := List Char

/-- Prepends a character to the first element of a list of strings
(used by the splitting functions below). -/
def consHead (x : Char) : List GoStr → List GoStr
  | [] => [[x]]
  | h :: t => (x :: h) :: t

/-- Models strings.Split(s, string(c)) for a one-character separator:
splits around each occurrence of c; Split of the empty string is [""]. -/
def splitChar (c : Char) : GoStr → List GoStr
  | [] => [[]]
  | x :: rest => if x = c then [] :: splitChar c rest else consHead x (splitChar c rest)

/-- Models strings.Split(s, sep) with sep = "/" (filepath.Separator on Unix). -/
def splitSep (s : GoStr) : List GoStr := splitChar '/' s

/-- Models strings.Join(xs, "/"). -/
def joinSep : List GoStr → GoStr
  | [] => []
  | [x] => x
  | x :: y :: xs => x ++ '/' :: joinSep (y :: xs)

/-- Models filepath.SplitList on Unix: returns the empty list for the empty
string, and otherwise splits on the list separator ':' (NOT on the path
separator '/'). -/
def splitList (s : GoStr) : List GoStr :=
  if s = [] then [] else splitChar ':' s

/-- Models strings.SplitN(s, "*", 2): the part before the first '*' and the
part after it, or the whole string when it holds no '*'. -/
def splitN2Star : GoStr → List GoStr
  | [] => [[]]
  | c :: rest => if c = '*' then [[], rest] else consHead c (splitN2Star rest)

/-- Models strings.Contains(s, sub) (any substring occurrence). -/
def containsSub : GoStr → GoStr → Bool
  | s, sub =>
    sub.isPrefixOf s ||
      match s with
      | [] => false
      | _ :: t => containsSub t sub

/-- Models strings.Contains(s, string(c)) for a single character. -/
def containsChar (s : GoStr) (c : Char) : Bool := s.contains c

/-- One step of the component normalization of filepath.Clean: acc is the
output stack (most recent component first), c the next input component.
Empty and "." components are dropped; ".." pops a previous real component,
is dropped at the root of a rooted path, and is kept otherwise; every other
component is pushed.  This is the component-level reading of Go's lazybuf
loop in path/filepath.Clean. -/
def cleanStep (rooted : Bool) (acc : List GoStr) (c : GoStr) : List GoStr :=
  if c = [] ∨ c = ['.'] then acc
  else if c = ['.', '.'] then
    match acc with
    | a :: rest => if a = ['.', '.'] then (if rooted then acc else c :: acc) else rest
    | [] => if rooted then [] else [c]
  else c :: acc

/-- Normalized components of a path, in order. -/
def cleanComps (rooted : Bool) (comps : List GoStr) : List GoStr :=
  (comps.foldl (cleanStep rooted) []).reverse

/-- Models filepath.Clean on Unix: collapses redundant separators and
"." / ".." components; the empty path cleans to ".". -/
def clean (path : GoStr) : GoStr :=
  if path = [] then ['.']
  else
    let rooted := path.head? == some '/'
    let outComps := cleanComps rooted (splitSep path)
    if rooted then '/' :: joinSep outComps
    else if outComps = [] then ['.'] else joinSep outComps

/-- Helper for extGo: walks the reversed string; acc holds the characters
already passed, in original order. -/
def extAux : GoStr → GoStr → GoStr
  | [], _ => []
  | c :: rest, acc =>
    if c = '/' then []
    else if c = '.' then c :: acc
    else extAux rest (c :: acc)

/-- Models filepath.Ext: the suffix beginning at the final dot in the final
path element; empty if there is no dot. -/
def extGo (s : GoStr) : GoStr := extAux s.reverse []

/-- Models filepath.Base on Unix: trailing separators are removed, then the
last element is returned; the empty path gives ".", an all-separator path
gives "/". -/
def baseGo (s : GoStr) : GoStr :=
  if s = [] then ['.']
  else
    let t := (s.reverse.dropWhile (fun c => c == '/')).reverse
    let b := (t.reverse.takeWhile (fun c => c != '/')).reverse
    if b = [] then ['/'] else b

/-!  The single-segment glob matcher, filepath.Match.  The embedding follows
path/filepath/match.go on Unix: a pattern is consumed chunk by chunk, where a
chunk is a maximal star-free segment optionally preceded by one or more '*';
'*' never matches '/'.  Error results (ErrBadPattern) are observationally
equivalent to a false match for the callers in this package, which all drop
the error, but the control flow around errors is preserved exactly. -/

/-- Result of matchChunk: a bad pattern, a failed match, or a successful
match together with the unconsumed remainder of the name. -/
inductive ChunkRes where
  | err : ChunkRes
  | nomatch : ChunkRes
  | ok (rest : GoStr) : ChunkRes
deriving DecidableEq

/-- Consumes the leading '*' characters of a pattern (the star loop at the
top of scanChunk). -/
def dropStars : GoStr → GoStr
  | '*' :: rest => dropStars rest
  | s => s

/-- The scan loop of scanChunk: cuts the star-free chunk off the front of
the remaining pattern.  A backslash escapes the next character (both go into
the chunk); '[' and ']' toggle the in-character-class flag; an unescaped '*'
outside a class ends the chunk. -/
def chunkSpan : Bool → GoStr → GoStr × GoStr
  | _, [] => ([], [])
  | inrange, c :: rest =>
    if c == '\\' then
      match rest with
      | c2 :: rest2 =>
        let pr := chunkSpan inrange rest2
        (c :: c2 :: pr.1, pr.2)
      | [] => ([c], [])
    else if c == '[' then
      let pr := chunkSpan true rest
      (c :: pr.1, pr.2)
    else if c == ']' then
      let pr := chunkSpan false rest
      (c :: pr.1, pr.2)
    else if c == '*' && !inrange then
      ([], c :: rest)
    else
      let pr := chunkSpan inrange rest
      (c :: pr.1, pr.2)

/-- Models scanChunk: (saw a leading star, next chunk, remaining pattern). -/
def scanChunk (pattern : GoStr) : Bool × GoStr × GoStr :=
  let star := pattern.head? == some '*'
  let pr := chunkSpan false (dropStars pattern)
  (star, pr.1, pr.2)

/-- Models getEsc: reads one (possibly backslash-escaped) character of a
character class.  Returns none for ErrBadPattern: empty input, a leading '-'
or ']', a trailing backslash, or a class that ends right after the
character. -/
def getEsc : GoStr → Option (Char × GoStr)
  | [] => none
  | c :: rest =>
    if c == '-' || c == ']' then none
    else if c == '\\' then
      match rest with
      | [] => none
      | c2 :: rest2 => if rest2 = [] then none else some (c2, rest2)
    else if rest = [] then none else some (c, rest)

/-- The range-parsing loop of matchChunk's '[' case: r is the character read
from the name, matched accumulates whether any lo-hi range contained r,
nrange counts parsed ranges; a ']' with at least one range closes the class.
The fuel is the chunk length; every iteration consumes at least one
character, so fuel never runs out when initialized that way. -/
def matchRangesGo : Nat → Char → Bool → Nat → GoStr → Option (GoStr × Bool)
  | 0, _, _, _, _ => none
  | fuel + 1, r, matched, nrange, chunk =>
    match chunk with
    | ']' :: crest =>
      if nrange > 0 then some (crest, matched)
      else none
    | _ =>
      match getEsc chunk with
      | none => none
      | some (lo, chunk1) =>
        match chunk1 with
        | '-' :: c1r =>
          match getEsc c1r with
          | none => none
          | some (hi, chunk2) =>
            matchRangesGo fuel r (matched || (decide (lo ≤ r) && decide (r ≤ hi))) (nrange + 1) chunk2
        | _ =>
          matchRangesGo fuel r (matched || (decide (lo ≤ r) && decide (r ≤ lo))) (nrange + 1) chunk1

/-- Models matchChunk: matches a star-free chunk against the head of s.
After a failure the loop keeps scanning the chunk so that bad patterns are
still reported as errors, without consuming more of s; the failed flag
records this state.  The fuel is the chunk length (each step consumes at
least one chunk character). -/
def matchChunkGo : Nat → GoStr → GoStr → Bool → ChunkRes
  | _, [], s, failed => if failed then .nomatch else .ok s
  | 0, _ :: _, _, _ => .err
  | fuel + 1, c :: crest, s, failed0 =>
    let failed := failed0 || s.isEmpty
    if c == '[' then
      let r : Char := if failed then Char.ofNat 0 else s.headD (Char.ofNat 0)
      let s1 := if failed then s else s.tail
      let negated := crest.head? == some '^'
      let cbody := if crest.head? == some '^' then crest.tail else crest
      match matchRangesGo cbody.length r false 0 cbody with
      | none => .err
      | some (crest2, classMatch) =>
        matchChunkGo fuel crest2 s1 (failed || (classMatch == negated))
    else if c == '?' then
      if failed then matchChunkGo fuel crest s true
      else matchChunkGo fuel crest s.tail (s.headD (Char.ofNat 0) == '/')
    else if c == '\\' then
      match crest with
      | [] => .err
      | e :: erest =>
        if failed then matchChunkGo fuel erest s true
        else matchChunkGo fuel erest s.tail (e != s.headD (Char.ofNat 0))
    else
      if failed then matchChunkGo fuel crest s true
      else matchChunkGo fuel crest s.tail (c != s.headD (Char.ofNat 0))

/-- The skip loop of Match after a starred chunk fails at the current
position: skip one non-'/' character of the name at a time and retry the
chunk.  Returns the accepted continuation of the name, or none when the loop
runs out (or a bad pattern aborts it) -- both mean Match returns false. -/
def starSearch (chunk : GoStr) (restNonempty : Bool) : GoStr → Option GoStr
  | [] => none
  | c :: urest =>
    if c == '/' then none
    else
      match matchChunkGo chunk.length chunk urest false with
      | .err => none
      | .ok t =>
        if t.isEmpty || restNonempty then some t
        else starSearch chunk restNonempty urest
      | .nomatch => starSearch chunk restNonempty urest

/-- The main loop of filepath.Match.  The fuel is the pattern length; every
iteration consumes at least one pattern character (a star or a non-empty
chunk), so the zero-fuel, non-empty-pattern case is unreachable for the
initial fuel. -/
def goMatchGo : Nat → GoStr → GoStr → Bool
  | _, [], name => name.isEmpty
  | 0, _ :: _, _ => false
  | fuel + 1, pattern, name =>
    let sc := scanChunk pattern
    let star := sc.1
    let chunk := sc.2.1
    let rest := sc.2.2
    if star && chunk.isEmpty then !(containsChar name '/')
    else
      match matchChunkGo chunk.length chunk name false with
      | .err => false
      | .ok t =>
        if t.isEmpty || !rest.isEmpty then goMatchGo fuel rest t
        else if star then
          match starSearch chunk (!rest.isEmpty) name with
          | some t2 => goMatchGo fuel rest t2
          | none => false
        else false
      | .nomatch =>
        if star then
          match starSearch chunk (!rest.isEmpty) name with
          | some t2 => goMatchGo fuel rest t2
          | none => false
        else false

/-- Models filepath.Match(pattern, name) on Unix, with the error dropped
(every error path of the Go function returns a false match, which is how all
callers in this package consume it). -/
def goMatch (pattern name : GoStr) : Bool := goMatchGo pattern.length pattern name

/-!  The regular expressions built by NewPattern.  Both wildcard variants
build a regex source with regexp.QuoteMeta followed by a global
strings.Replace and anchor it as ^...$: every regex produced here is an
alternation-free sequence of literal chunks separated by .* wildcards,
matched against the whole subject.  Such a regex is represented by its list
of literal chunks (n chunks = n-1 wildcards between them).  A .* in Go
matches any run of characters other than newline. -/

/-- Literal chunks of the double-wildcard regex: QuoteMeta escapes every
character, then each escaped "**" (scanned left to right, non-overlapping)
becomes ".*"; a lone '*' stays a literal star. -/
def starChunksD : GoStr → List GoStr
  | [] => [[]]
  | '*' :: '*' :: rest => [] :: starChunksD rest
  | c :: rest => consHead c (starChunksD rest)

/-- Literal chunks of the pathless-wildcard regex: every '*' of the cleaned
pattern becomes a ".*" wildcard. -/
def starChunksS : GoStr → List GoStr
  | [] => [[]]
  | '*' :: rest => [] :: starChunksS rest
  | c :: rest => consHead c (starChunksS rest)

/-- Tries a continuation k on every suffix of s reachable by deleting
leading non-newline characters (the subject runs a .* wildcard can absorb). -/
def trySplits (k : GoStr → Bool) : GoStr → Bool
  | [] => k []
  | c :: rest => k (c :: rest) || (c != '\n' && trySplits k rest)

/-- Full-string match of a chunk regex (the ^...$ anchors make MatchString a
whole-string test): each literal chunk must occur in order, with arbitrary
newline-free runs consumed by the wildcards between chunks.  The fuel is the
number of chunks; each step consumes one chunk. -/
def reFullGo : Nat → List GoStr → GoStr → Bool
  | _, [], s => s.isEmpty
  | _, [c], s => s == c
  | fuel + 1, c :: rest, s =>
    c.isPrefixOf s && trySplits (fun u => reFullGo fuel rest u) (s.drop c.length)
  | 0, _ :: _ :: _, _ => false

/-- Models wildcardRE.MatchString for the anchored chunk regexes built in
this package. -/
def reFull (chunks : List GoStr) (s : GoStr) : Bool := reFullGo chunks.length chunks s

/-- Models regexp.(*Regexp).LiteralPrefix for the regexes built in this
package.  Go returns (prefix, complete) where prefix is the literal run at
the start of the compiled program (the leading literal chunk here) and
complete reports whether that literal comprises the entire regular
expression, i.e. whether the instruction after the run is a match
instruction.  Every regex built here contains at least one .* wildcard and
ends with the end-of-text anchor $, so the run is always followed by a
wildcard loop or an empty-width instruction and complete is false for every
representable regex. -/
def reLiteralPrefixC (chunks : List GoStr) : GoStr × Bool := (chunks.headD [], false)

/-!  The Pattern interface and its variants. -/

/-- The Pattern interface: Match tests a full path, HasPrefix tests whether
the pattern could match something under a directory prefix, Str is the
String() form reported in diagnostics. -/
structure Pat where
  Match : GoStr → Bool
  HasPrefix : GoStr → Bool
  Str : GoStr

/-- The noOpMatcher variant: matches everything; String() returns the stored
(cleaned) pattern.  (The Go String() also accepts a nil receiver and returns
""; no nil noOpMatcher is ever built by this package.) -/
def noOpMatcher (pattern : GoStr) : Pat :=
  { Match := fun _ => true
    HasPrefix := fun _ => true
    Str := pattern }

/-- The simpleExtPattern variant: Match is a suffix test against the stored
extension, HasPrefix is always true, String() is "*" + ext. -/
def simpleExtPattern (ext : GoStr) : Pat :=
  { Match := fun name => ext.isSuffixOf name
    HasPrefix := fun _ => true
    Str := '*' :: ext }

/-- The doubleWildcardPattern variant, built from the cleaned pattern (which
contains a path separator and "**"): Match is filepath.Match on the raw
(cleaned) pattern or a full regex match of the whole name; HasPrefix returns
true when LiteralPrefix's boolean is false, and otherwise compares the
literal prefix -- see reLiteralPrefixC. -/
def doubleWildcardPattern (cleanpattern : GoStr) : Pat :=
  let re := starChunksD cleanpattern
  { Match := fun name => goMatch cleanpattern name || reFull re name
    HasPrefix := fun name =>
      let lp := reLiteralPrefixC re
      if !lp.2 then true else lp.1.isPrefixOf name
    Str := cleanpattern }

/-- The pathlessWildcardPattern variant, built from the cleaned pattern
(which contains '*' and no path separator): Match is filepath.Match on the
raw pattern or a full regex match of the base name; HasPrefix as in the
double-wildcard variant. -/
def pathlessWildcardPattern (cleanpattern : GoStr) : Pat :=
  let re := starChunksS cleanpattern
  { Match := fun name => goMatch cleanpattern name || reFull re (baseGo name)
    HasPrefix := fun name =>
      let lp := reLiteralPrefixC re
      if !lp.2 then true else lp.1.isPrefixOf name
    Str := cleanpattern }

/-- The loop of pathfulWildcardPattern.partial.  The filepath "name" has
been split with filepath.SplitList -- on the LIST separator ':', not the
path separator (the code's own comment says path-separator components, but
that is not what SplitList does).  For the i-th component, the pattern
component wildDirs[i] is split around its first '*'; the part before the
star must be a prefix of the component, and when a star was present and the
remainder holds no further '*', the remainder must be a suffix of the
component.  When a further '*' is present the component is accepted outright
(the Go loop re-splits, then immediately breaks out of the inner loop,
discarding the re-split).  On a component failure the Go code joins a slice
of the INNER star-split (not of the name components) of length i: when i
exceeds the length but not the capacity of that slice, make's zero values
"" fill the gap; past the capacity the Go code panics, modelled as none.
Reading wildDirs[i] past its end also panics. -/
def pfLoop (wildDirs : List GoStr) (name : GoStr) : Nat → List GoStr → Option GoStr
  | _, [] => some name
  | i, dir :: restDirs =>
    match wildDirs.get? i with
    | none => none
    | some wd =>
      let sp := splitN2Star wd
      let cap2 := min 2 (wd.length + 1)
      let failRet : Option GoStr :=
        if i ≤ sp.length then some (joinSep (sp.take i))
        else if i ≤ cap2 then some (joinSep (sp ++ List.replicate (i - sp.length) []))
        else none
      if !(sp.headD []).isPrefixOf dir then failRet
      else if sp.length == 2 then
        if containsChar (sp.getD 1 []) '*' then pfLoop wildDirs name (i + 1) restDirs
        else if !(sp.getD 1 []).isSuffixOf dir then failRet
        else pfLoop wildDirs name (i + 1) restDirs
      else pfLoop wildDirs name (i + 1) restDirs

/-- Models pathfulWildcardPattern.partial; none marks inputs on which the Go
code panics (only reachable when name or pattern contain the list separator
':'). -/
def pathfulPart (wildDirs : List GoStr) (name : GoStr) : Option GoStr :=
  pfLoop wildDirs name 0 (splitList name)

/-- The pathfulWildcardPattern variant: Match holds when the partial match
is the whole name, HasPrefix when it is non-empty; String() joins the stored
components with the path separator.  Inputs on which the Go partial function
panics are mapped to false. -/
def pathfulWildcardPattern (wildDirs : List GoStr) : Pat :=
  { Match := fun name => pathfulPart wildDirs name == some name
    HasPrefix := fun name =>
      match pathfulPart wildDirs name with
      | some r => !r.isEmpty
      | none => false
    Str := joinSep wildDirs }

/-- The pathPrefixPattern variant, built from a cleaned pattern that starts
with the path separator: relative is the pattern without its leading (and
any trailing) separator, and the stored prefix is relative plus a trailing
separator. -/
def pathPrefixPattern (cleanpattern : GoStr) : Pat :=
  let rel0 := cleanpattern.drop 1
  let rel := if ['/'].isSuffixOf rel0 then rel0.dropLast else rel0
  let pfx := if ['/'].isSuffixOf rel0 then rel0 else rel0 ++ ['/']
  { Match := fun name => name == rel || pfx.isPrefixOf name || goMatch cleanpattern name
    HasPrefix := fun name => name.isPrefixOf rel
    Str := cleanpattern }

/-- The pathPattern variant (the catch-all): the pattern matches as a whole
path component anywhere in the path, or via filepath.Match. -/
def pathPattern (cleanpattern : GoStr) : Pat :=
  let pfx := cleanpattern ++ ['/']
  let sfx := '/' :: cleanpattern
  let inner := '/' :: (cleanpattern ++ ['/'])
  { Match := fun name =>
      pfx.isPrefixOf name || sfx.isSuffixOf name || containsSub name inner ||
        goMatch cleanpattern name
    HasPrefix := fun name => name.isPrefixOf pfx
    Str := cleanpattern }

/-- The fixed local-directory set: these cleaned patterns match everything. -/
def localDirSet : List GoStr := [['*'], ['*', '.', '*'], ['.'], ['.', '/'], ['.', '\\']]

/-- Models NewPattern: cleans the raw pattern and classifies it into exactly
one variant, in the order the Go code tests the shapes. -/
def NewPattern (rawpattern : GoStr) : Pat :=
  let cleanpattern := clean rawpattern
  if localDirSet.contains cleanpattern then noOpMatcher cleanpattern
  else
    let hasPathSep := containsChar cleanpattern '/'
    let ext := extGo cleanpattern
    let plen := cleanpattern.length
    if decide (plen > 1) && !hasPathSep && (cleanpattern.head? == some '*') &&
        (cleanpattern.drop 1 == ext) then
      simpleExtPattern ext
    else if hasPathSep && containsSub cleanpattern ['*', '*'] then
      doubleWildcardPattern cleanpattern
    else if containsChar cleanpattern '*' then
      if !hasPathSep then pathlessWildcardPattern cleanpattern
      else pathfulWildcardPattern (splitList cleanpattern)
    else if hasPathSep && (cleanpattern.head? == some '/') then
      pathPrefixPattern cleanpattern
    else
      pathPattern cleanpattern

/-!  The Filter. -/

/-- A Filter holds the ordered include and exclude pattern sequences (the Go
fields are named include and exclude). -/
structure Filter where
  incl : List Pat
  excl : List Pat

/-- Models convertToPatterns. -/
def convertToPatterns (rawpatterns : List GoStr) : List Pat :=
  rawpatterns.map NewPattern

/-- Models New: compiles both raw-string lists. -/
def New (inc exc : List GoStr) : Filter :=
  { incl := convertToPatterns inc, excl := convertToPatterns exc }

/-- Models patternsToStrings. -/
def patternsToStrings (ps : List Pat) : List GoStr := ps.map (fun p => p.Str)

/-- Models Filter.Include. -/
def Filter.Include (f : Filter) : List GoStr := patternsToStrings f.incl

/-- Models Filter.Exclude. -/
def Filter.Exclude (f : Filter) : List GoStr := patternsToStrings f.excl

/-- Models Filter.AllowsPattern; the receiver is an Option so that the nil
*Filter receiver is representable.  The filename is cleaned, then the
include patterns are scanned in declaration order for a first match (the Go
loop with break is List.find?), then the exclude patterns likewise. -/
def Filter.AllowsPattern : Option Filter → GoStr → GoStr × Bool
  | none, _ => ([], true)
  | some f, filename =>
    if f.incl.length + f.excl.length = 0 then ([], true)
    else
      let cleanedName := clean filename
      if f.incl.length > 0 then
        match f.incl.find? (fun p => p.Match cleanedName) with
        | none => ([], false)
        | some inc =>
          match f.excl.find? (fun p => p.Match cleanedName) with
          | some ex => (ex.Str, false)
          | none => (inc.Str, true)
      else
        match f.excl.find? (fun p => p.Match cleanedName) with
        | some ex => (ex.Str, false)
        | none => ([], true)

/-- Models Filter.Allows. -/
def Filter.Allows (f : Option Filter) (filename : GoStr) : Bool :=
  (Filter.AllowsPattern f filename).2

/-- The labelled loop of Filter.HasPrefix, counting the number of leading
components still under consideration: at i+1 the candidate ancestor is the
join of the first i+1 components; a full exclude match breaks out of the
whole walk (result false), an empty include list ends it with true, an
include HasPrefix hit ends it with true, and otherwise the next shorter
ancestor is examined. -/
def hpLoop (f : Filter) (parts : List GoStr) : Nat → Bool
  | 0 => false
  | i + 1 =>
    let pre := joinSep (parts.take (i + 1))
    if f.excl.any (fun p => p.Match pre) then false
    else if f.incl.isEmpty then true
    else if f.incl.any (fun p => p.HasPrefix pre) then true
    else hpLoop f parts i

/-- Models Filter.HasPrefix (nil receiver: always true).  Note that the
prefix argument is NOT cleaned: it is split on the separator as given. -/
def Filter.HasPrefix : Option Filter → GoStr → Bool
  | none, _ => true
  | some f, pre => hpLoop f (splitSep pre) (splitSep pre).length

/-!  Lemmas about splitting and joining. -/

theorem consHead_ne_nil (x : Char) (l : List GoStr) : consHead x l ≠ [] := by
  cases l <;> simp [consHead]

theorem splitChar_ne_nil (c : Char) (s : GoStr) : splitChar c s ≠ [] := by
  induction s with
  | nil => simp [splitChar]
  | cons x rest ih =>
    by_cases h : x = c
    · simp [splitChar, h]
    · simpa [splitChar, h] using consHead_ne_nil x (splitChar c rest)

theorem mem_consHead (x : Char) (l : List GoStr) (hl : l ≠ []) (comp : GoStr)
    (h : comp ∈ consHead x l) : comp = x :: l.head hl ∨ comp ∈ l.tail := by
  cases l with
  | nil => exact absurd rfl hl
  | cons h0 t => simpa [consHead] using h

theorem not_mem_of_mem_splitChar (c : Char) (s : GoStr) (comp : GoStr)
    (h : comp ∈ splitChar c s) : c ∉ comp := by
  induction s generalizing comp with
  | nil =>
    simp only [splitChar, List.mem_singleton] at h
    simp [h]
  | cons x rest ih =>
    by_cases hx : x = c
    · simp only [splitChar, if_pos hx, List.mem_cons] at h
      rcases h with h | h
      · simp [h]
      · exact ih comp h
    · simp only [splitChar, if_neg hx] at h
      have hne := splitChar_ne_nil c rest
      rcases mem_consHead x _ hne comp h with h1 | h1
      · subst h1
        intro hmem
        rcases List.mem_cons.mp hmem with h2 | h2
        · exact hx h2.symm
        · exact ih _ (List.head_mem hne) h2
      · exact ih comp (List.mem_of_mem_tail h1)

theorem splitChar_of_not_mem (c : Char) (s : GoStr) (h : c ∉ s) :
    splitChar c s = [s] := by
  induction s with
  | nil => rfl
  | cons x rest ih =>
    have hx : x ≠ c := fun hc => h (hc ▸ List.mem_cons_self x rest)
    have hr : c ∉ rest := fun hc => h (List.mem_cons_of_mem x hc)
    simp [splitChar, hx, ih hr, consHead]

theorem joinSep_consHead (x : Char) (l : List GoStr) (hl : l ≠ []) :
    joinSep (consHead x l) = x :: joinSep l := by
  cases l with
  | nil => exact absurd rfl hl
  | cons h0 t =>
    cases t with
    | nil => rfl
    | cons y ys => simp [consHead, joinSep]

theorem joinSep_splitSep (s : GoStr) : joinSep (splitSep s) = s := by
  induction s with
  | nil => rfl
  | cons c s' ih =>
    by_cases hc : c = '/'
    · subst hc
      have hne := splitChar_ne_nil '/' s'
      have hsp : splitSep ('/' :: s') = [] :: splitSep s' := by
        simp [splitSep, splitChar]
      rw [hsp]
      cases h : splitSep s' with
      | nil => exact absurd h hne
      | cons h0 t =>
        have : joinSep ([] :: h0 :: t) = '/' :: joinSep (h0 :: t) := by simp [joinSep]
        rw [this, ← h, ih]
    · have hsp : splitSep (c :: s') = consHead c (splitSep s') := by
        simp [splitSep, splitChar, hc]
      rw [hsp, joinSep_consHead c (splitSep s') (splitChar_ne_nil '/' s'), ih]

theorem splitChar_append_cons (c : Char) (x t : GoStr) (hx : c ∉ x) :
    splitChar c (x ++ c :: t) = x :: splitChar c t := by
  induction x with
  | nil => simp [splitChar]
  | cons a x' ih =>
    have ha : a ≠ c := fun hc => hx (hc ▸ List.mem_cons_self a x')
    have hx' : c ∉ x' := fun hc => hx (List.mem_cons_of_mem a hc)
    simp [splitChar, ha, ih hx', consHead]

theorem splitSep_joinSep (comps : List GoStr) (hne : comps ≠ [])
    (hfree : ∀ x ∈ comps, '/' ∉ x) : splitSep (joinSep comps) = comps := by
  induction comps with
  | nil => exact absurd rfl hne
  | cons x rest ih =>
    cases rest with
    | nil => exact splitChar_of_not_mem '/' x (hfree x (List.mem_singleton.mpr rfl))
    | cons y ys =>
      have hx : '/' ∉ x := hfree x (List.mem_cons_self _ _)
      show splitChar '/' (x ++ '/' :: joinSep (y :: ys)) = x :: y :: ys
      rw [splitChar_append_cons '/' x _ hx]
      have := ih (by simp) (fun z hz => hfree z (List.mem_cons_of_mem x hz))
      rw [show splitChar '/' (joinSep (y :: ys)) = splitSep (joinSep (y :: ys)) from rfl, this]

theorem joinSep_ne_nil (x : GoStr) (xs : List GoStr) (hx : x ≠ []) :
    joinSep (x :: xs) ≠ [] := by
  cases xs with
  | nil => simpa [joinSep] using hx
  | cons y ys => simp [joinSep, hx]

theorem joinSep_head? (x : GoStr) (xs : List GoStr) (hx : x ≠ []) :
    (joinSep (x :: xs)).head? = x.head? := by
  cases xs with
  | nil => rfl
  | cons y ys =>
    show (x ++ '/' :: joinSep (y :: ys)).head? = x.head?
    cases x with
    | nil => exact absurd rfl hx
    | cons a as => rfl

/-!  Idempotence of clean.  A component produced by the normalization is
either a run of leading ".." components (for relative paths) followed by
ordinary components; cleaning such a string again changes nothing. -/

/-- An ordinary path component: non-empty, not "." or "..", separator-free. -/
def GoodComp (c : GoStr) : Prop :=
  c ≠ [] ∧ c ≠ ['.'] ∧ c ≠ ['.', '.'] ∧ '/' ∉ c

/-- Invariant of the normalization stack: recent ordinary components on top
of a run of ".." components, the latter empty for rooted paths. -/
def StackOK (rooted : Bool) (acc : List GoStr) : Prop :=
  ∃ g d, acc = g ++ d ∧ (∀ x ∈ g, GoodComp x) ∧ (∀ x ∈ d, x = ['.', '.']) ∧
    (rooted = true → d = [])

theorem cleanStep_good (ro : Bool) (acc : List GoStr) (c : GoStr) (h : GoodComp c) :
    cleanStep ro acc c = c :: acc := by
  obtain ⟨h1, h2, h3, _⟩ := h
  simp [cleanStep, h1, h2, h3]

theorem cleanStep_stackOK (ro : Bool) (acc : List GoStr) (c : GoStr)
    (hs : StackOK ro acc) (hc : '/' ∉ c) : StackOK ro (cleanStep ro acc c) := by
  obtain ⟨g, d, hacc, hg, hd, hro⟩ := hs
  by_cases h1 : c = [] ∨ c = ['.']
  · have hstep : cleanStep ro acc c = acc := by simp [cleanStep, h1]
    rw [hstep]
    exact ⟨g, d, hacc, hg, hd, hro⟩
  · by_cases h2 : c = ['.', '.']
    · subst h2
      cases g with
      | nil =>
        simp only [List.nil_append] at hacc
        cases hdv : d with
        | nil =>
          have haccnil : acc = [] := by rw [hacc, hdv]
          rw [haccnil]
          cases ro with
          | true => exact ⟨[], [], by decide, by simp, by simp, fun _ => rfl⟩
          | false =>
            refine ⟨[], [['.', '.']], by decide, by simp, ?_, by simp⟩
            intro x hx
            simpa using hx
        | cons a d' =>
          have ha : a = ['.', '.'] := hd a (hdv ▸ List.mem_cons_self a d')
          have hroF : ro = false := by
            cases ro with
            | false => rfl
            | true => exact absurd (hdv ▸ hro rfl) (by simp)
          subst hroF
          refine ⟨[], ['.', '.'] :: d, ?_, by simp, ?_, by simp⟩
          · rw [hacc, hdv]
            simp [cleanStep, ha]
          · intro x hx
            rcases List.mem_cons.mp hx with h | h
            · exact h
            · exact hd x h
      | cons a g' =>
        have ha : GoodComp a := hg a (List.mem_cons_self a g')
        refine ⟨g', d, ?_, fun x hx => hg x (List.mem_cons_of_mem a hx), hd, hro⟩
        rw [hacc]
        simp [cleanStep, ha.2.2.1]
    · have hgood : GoodComp c := by
        refine ⟨?_, ?_, h2, hc⟩
        · intro h; exact h1 (Or.inl h)
        · intro h; exact h1 (Or.inr h)
      rw [cleanStep_good ro acc c hgood]
      exact ⟨c :: g, d, by simp [hacc], by
        intro x hx
        rcases List.mem_cons.mp hx with h | h
        · exact h ▸ hgood
        · exact hg x h, hd, hro⟩

theorem foldl_cleanStep_stackOK (ro : Bool) :
    ∀ (l acc : List GoStr), StackOK ro acc → (∀ x ∈ l, '/' ∉ x) →
      StackOK ro (l.foldl (cleanStep ro) acc)
  | [], _, hs, _ => hs
  | x :: rest, acc, hs, hl =>
    foldl_cleanStep_stackOK ro rest (cleanStep ro acc x)
      (cleanStep_stackOK ro acc x hs (hl x (List.mem_cons_self _ _)))
      (fun y hy => hl y (List.mem_cons_of_mem x hy))

/-- Shape of the output components of the normalization: a run of ".."
components (empty for rooted paths) followed by ordinary components. -/
def ResultOK (rooted : Bool) (l : List GoStr) : Prop :=
  ∃ d g, l = d ++ g ∧ (∀ x ∈ d, x = ['.', '.']) ∧ (∀ x ∈ g, GoodComp x) ∧
    (rooted = true → d = [])

theorem cleanComps_resultOK (ro : Bool) (comps : List GoStr)
    (h : ∀ x ∈ comps, '/' ∉ x) : ResultOK ro (cleanComps ro comps) := by
  have h0 : StackOK ro [] := ⟨[], [], rfl, by simp, by simp, fun _ => rfl⟩
  obtain ⟨g, d, hacc, hg, hd, hro⟩ := foldl_cleanStep_stackOK ro comps [] h0 h
  refine ⟨d.reverse, g.reverse, ?_, by simpa using hd, by simpa using hg,
    fun hr => by simp [hro hr]⟩
  simp [cleanComps, hacc]

theorem foldl_cleanStep_good (ro : Bool) :
    ∀ (l : List GoStr), (∀ x ∈ l, GoodComp x) → ∀ (acc : List GoStr),
      l.foldl (cleanStep ro) acc = l.reverse ++ acc
  | [], _, acc => by simp
  | x :: rest, h, acc => by
    rw [List.foldl_cons, cleanStep_good ro acc x (h x (List.mem_cons_self _ _)),
      foldl_cleanStep_good ro rest (fun y hy => h y (List.mem_cons_of_mem x hy)) (x :: acc),
      List.reverse_cons, List.append_assoc]
    rfl

theorem foldl_cleanStep_dots :
    ∀ (l : List GoStr), (∀ x ∈ l, x = ['.', '.']) → ∀ (acc : List GoStr),
      (∀ x ∈ acc, x = ['.', '.']) → l.foldl (cleanStep false) acc = l.reverse ++ acc
  | [], _, acc, _ => by simp
  | x :: rest, h, acc, hacc => by
    have hx := h x (List.mem_cons_self _ _)
    have hstep : cleanStep false acc x = x :: acc := by
      subst hx
      cases acc' : acc with
      | nil => simp [cleanStep]
      | cons a rest' =>
        have := hacc a (acc' ▸ List.mem_cons_self a rest')
        simp [cleanStep, this]
    rw [List.foldl_cons, hstep,
      foldl_cleanStep_dots rest (fun y hy => h y (List.mem_cons_of_mem x hy)) (x :: acc) (by
        intro y hy
        rcases List.mem_cons.mp hy with h' | h'
        · exact h' ▸ h x (List.mem_cons_self _ _)
        · exact hacc y h'), List.reverse_cons, List.append_assoc]
    rfl

theorem cleanComps_of_resultOK (ro : Bool) (d g : List GoStr)
    (hd : ∀ x ∈ d, x = ['.', '.']) (hg : ∀ x ∈ g, GoodComp x)
    (hro : ro = true → d = []) : cleanComps ro (d ++ g) = d ++ g := by
  cases ro with
  | true =>
    rw [hro rfl]
    simp only [List.nil_append, cleanComps]
    rw [foldl_cleanStep_good true g hg []]
    simp
  | false =>
    simp only [cleanComps, List.foldl_append]
    rw [foldl_cleanStep_dots d hd [] (by simp),
      foldl_cleanStep_good false g hg _]
    simp

theorem clean_eq_rooted (p : GoStr) (hp : p ≠ []) (hr : (p.head? == some '/') = true) :
    clean p = '/' :: joinSep (cleanComps true (splitSep p)) := by
  simp [clean, hp, hr]

theorem clean_eq_unrooted (p : GoStr) (hp : p ≠ []) (hr : (p.head? == some '/') = false) :
    clean p = (if cleanComps false (splitSep p) = [] then ['.']
               else joinSep (cleanComps false (splitSep p))) := by
  simp [clean, hp, hr]

theorem clean_rooted_fixed (g : List GoStr) (hg : ∀ x ∈ g, GoodComp x) :
    clean ('/' :: joinSep g) = '/' :: joinSep g := by
  cases hgnil : g with
  | nil => subst hgnil; decide
  | cons g0 gs =>
    rw [← hgnil]
    have hgfree : ∀ x ∈ g, '/' ∉ x := fun x hx => (hg x hx).2.2.2
    have hne : g ≠ [] := by simp [hgnil]
    have hjoin : splitSep (joinSep g) = g := splitSep_joinSep g hne hgfree
    have hsp : splitSep ('/' :: joinSep g) = [] :: g := by
      have h0 : splitSep ('/' :: joinSep g) = [] :: splitSep (joinSep g) := by
        simp [splitSep, splitChar]
      rw [h0, hjoin]
    have hpne : ('/' :: joinSep g : GoStr) ≠ [] := by simp
    have hhead : ((('/' :: joinSep g : GoStr)).head? == some '/') = true := by simp
    rw [clean_eq_rooted _ hpne hhead, hsp]
    have hcc : cleanComps true ([] :: g) = g := by
      simp only [cleanComps, List.foldl_cons]
      have h0 : cleanStep true [] [] = [] := by simp [cleanStep]
      rw [h0, foldl_cleanStep_good true g hg []]
      simp
    rw [hcc]

theorem clean_unrooted_fixed (d g : List GoStr) (hd : ∀ x ∈ d, x = ['.', '.'])
    (hg : ∀ x ∈ g, GoodComp x) (hne : d ++ g ≠ []) :
    clean (joinSep (d ++ g)) = joinSep (d ++ g) := by
  have hdfree : ∀ x ∈ d, '/' ∉ x := fun x hx => by rw [hd x hx]; decide
  have hgfree : ∀ x ∈ g, '/' ∉ x := fun x hx => (hg x hx).2.2.2
  have hfree : ∀ x ∈ d ++ g, '/' ∉ x := by
    intro x hx
    rcases List.mem_append.mp hx with h | h
    · exact hdfree x h
    · exact hgfree x h
  obtain ⟨x0, xs, hx0⟩ : ∃ x0 xs, d ++ g = x0 :: xs := by
    cases h : d ++ g with
    | nil => exact absurd h hne
    | cons a b => exact ⟨a, b, rfl⟩
  have hx0mem : x0 ∈ d ++ g := hx0 ▸ List.mem_cons_self x0 xs
  have hx0ne : x0 ≠ [] := by
    rcases List.mem_append.mp hx0mem with h | h
    · rw [hd x0 h]; simp
    · exact (hg x0 h).1
  have hx0free : '/' ∉ x0 := hfree x0 hx0mem
  have hrne : joinSep (d ++ g) ≠ [] := hx0 ▸ joinSep_ne_nil x0 xs hx0ne
  have hrhead : ((joinSep (d ++ g)).head? == some '/') = false := by
    rw [hx0, joinSep_head? x0 xs hx0ne]
    cases x0 with
    | nil => exact absurd rfl hx0ne
    | cons a as =>
      have ha : a ≠ '/' := fun h => hx0free (h ▸ List.mem_cons_self a as)
      simp [ha]
  have hsp : splitSep (joinSep (d ++ g)) = d ++ g := splitSep_joinSep _ hne hfree
  have hcc : cleanComps false (d ++ g) = d ++ g :=
    cleanComps_of_resultOK false d g hd hg (by simp)
  rw [clean_eq_unrooted _ hrne hrhead, hsp, hcc, if_neg hne]

theorem clean_idem (p : GoStr) : clean (clean p) = clean p := by
  by_cases hp : p = []
  · subst hp; decide
  · have hsplit : ∀ x ∈ splitSep p, '/' ∉ x :=
      fun x hx => not_mem_of_mem_splitChar '/' p x hx
    cases hrov : (p.head? == some '/') with
    | true =>
      obtain ⟨d, g, hoc, hd, hg, hrod⟩ := cleanComps_resultOK true (splitSep p) hsplit
      have hdnil : d = [] := hrod rfl
      subst hdnil
      simp only [List.nil_append] at hoc
      rw [clean_eq_rooted p hp hrov, hoc]
      exact clean_rooted_fixed g hg
    | false =>
      obtain ⟨d, g, hoc, hd, hg, _⟩ := cleanComps_resultOK false (splitSep p) hsplit
      rw [clean_eq_unrooted p hp hrov, hoc]
      by_cases hnil : d ++ g = []
      · rw [if_pos hnil]; decide
      · rw [if_neg hnil]
        exact clean_unrooted_fixed d g hd hg hnil

/-!  Claim C1: the decision order of Filter.AllowsPattern. -/

/-- Unfolded form of Filter.AllowsPattern on a non-nil receiver, with the
first-match loops written as List.find?. -/
theorem allowsPattern_some (f : Filter) (name : GoStr) :
    Filter.AllowsPattern (some f) name =
      (if f.incl.length + f.excl.length = 0 then ([], true)
       else if f.incl.length > 0 then
         match f.incl.find? (fun p => p.Match (clean name)) with
         | none => ([], false)
         | some inc =>
           match f.excl.find? (fun p => p.Match (clean name)) with
           | some ex => (ex.Str, false)
           | none => (inc.Str, true)
       else
         match f.excl.find? (fun p => p.Match (clean name)) with
         | some ex => (ex.Str, false)
         | none => ([], true)) := rfl

/-- A pattern whose Match and HasPrefix always hold (used to instantiate
theorems about the Filter decision logic at concrete inputs). -/
def patTrue (s : GoStr) : Pat :=
  { Match := fun _ => true, HasPrefix := fun _ => true, Str := s }

/-- C1: AllowsPattern decision order.  A nil Filter, or one with both lists
empty, returns ("", true).  Otherwise the filename is cleaned first; when the
include list is non-empty and no include pattern matches the cleaned name the
result is ("", false) whatever the exclude list holds (excludes are never
consulted); when the first matching include is inc (or the include list is
empty), the first exclude matching the cleaned name wins with (its String(),
false); with no exclude match the result is (inc's String(), true), or
("", true) when the include list is empty. -/
theorem allowsPattern_decision_order (f : Filter) (name : GoStr) :
    (Filter.AllowsPattern none name = ([], true)) ∧
    (f.incl = [] → f.excl = [] → Filter.AllowsPattern (some f) name = ([], true)) ∧
    (f.incl ≠ [] → (∀ p ∈ f.incl, p.Match (clean name) = false) →
      ∀ f2 : Filter, f2.incl = f.incl →
        Filter.AllowsPattern (some f2) name = ([], false)) ∧
    (∀ inc, f.incl.find? (fun p => p.Match (clean name)) = some inc →
      ∀ ex, f.excl.find? (fun p => p.Match (clean name)) = some ex →
        Filter.AllowsPattern (some f) name = (ex.Str, false)) ∧
    (∀ inc, f.incl.find? (fun p => p.Match (clean name)) = some inc →
      f.excl.find? (fun p => p.Match (clean name)) = none →
        Filter.AllowsPattern (some f) name = (inc.Str, true)) ∧
    (f.incl = [] → ∀ ex, f.excl.find? (fun p => p.Match (clean name)) = some ex →
      Filter.AllowsPattern (some f) name = (ex.Str, false)) ∧
    (f.incl = [] → f.excl ≠ [] → f.excl.find? (fun p => p.Match (clean name)) = none →
      Filter.AllowsPattern (some f) name = ([], true)) := by
  refine ⟨rfl, ?_, ?_, ?_, ?_, ?_, ?_⟩
  · intro h1 h2
    rw [allowsPattern_some]
    simp [h1, h2]
  · intro h1 h2 f2 h12
    have hpos : 0 < f2.incl.length := by
      rw [h12]
      exact List.length_pos.mpr h1
    have hf : f2.incl.find? (fun p => p.Match (clean name)) = none := by
      rw [h12]
      exact List.find?_eq_none.mpr (fun x hx => by simp [h2 x hx])
    rw [allowsPattern_some, if_neg (by omega), if_pos hpos, hf]
  · intro inc hfi ex hfe
    have hne : f.incl ≠ [] := by
      intro h
      rw [h] at hfi
      simp at hfi
    have hpos : 0 < f.incl.length := List.length_pos.mpr hne
    rw [allowsPattern_some]
    rw [if_neg (by omega), if_pos hpos, hfi, hfe]
  · intro inc hfi hfe
    have hne : f.incl ≠ [] := by
      intro h
      rw [h] at hfi
      simp at hfi
    have hpos : 0 < f.incl.length := List.length_pos.mpr hne
    rw [allowsPattern_some]
    rw [if_neg (by omega), if_pos hpos, hfi, hfe]
  · intro h1 ex hfe
    have hne : f.excl ≠ [] := by
      intro h
      rw [h] at hfe
      simp at hfe
    have hpos : 0 < f.excl.length := List.length_pos.mpr hne
    rw [allowsPattern_some]
    rw [if_neg (by omega), if_neg (by simp [h1]), hfe]
  · intro h1 h2 hfe
    have hpos : 0 < f.excl.length := List.length_pos.mpr h2
    rw [allowsPattern_some]
    rw [if_neg (by omega), if_neg (by simp [h1]), hfe]

/-- Witness for C1: a filter with one always-matching include and one
always-matching exclude disallows a path, reporting the exclude's string. -/
theorem allowsPattern_decision_order_witness :
    Filter.AllowsPattern (some { incl := [patTrue ['i']], excl := [patTrue ['e']] })
      ['x'] = (['e'], false) :=
  (allowsPattern_decision_order { incl := [patTrue ['i']], excl := [patTrue ['e']] }
    ['x']).2.2.2.1 (patTrue ['i']) rfl (patTrue ['e']) rfl

/-!  Claim C6: the ancestor walk of Filter.HasPrefix. -/

/-- The walk claim C6 describes: ancestor prefixes are examined from the
full prefix down to and INCLUDING the empty one (take j of the components
for j from the component count down to 0); the result is true iff some
include pattern's HasPrefix holds at an examined ancestor none of whose
deeper-or-equal examined ancestors is fully matched by an exclude pattern,
and with an empty include list the result is decided by the exclude test on
the full prefix alone. -/
def hpClaimBool (f : Filter) (pre : GoStr) : Bool :=
  let parts := splitSep pre
  if f.incl.isEmpty then !(f.excl.any (fun q => q.Match pre))
  else
    (List.range (parts.length + 1)).any (fun j =>
      (f.incl.any (fun p => p.HasPrefix (joinSep (parts.take j)))) &&
      ((List.range (parts.length + 1 - j)).all (fun d =>
        !(f.excl.any (fun q => q.Match (joinSep (parts.take (j + d))))))))

/-- Counterexample to C6 as stated: with include = ["a"] and no excludes,
the walk of the claim (which examines the empty ancestor, where the include
pattern's HasPrefix holds vacuously) answers true on the prefix "b", but the
code's loop stops at the first component and answers false: the empty
ancestor prefix is never examined. -/
theorem hasPrefix_walk_counterexample :
    Filter.HasPrefix (some (New ["a".data] [])) "b".data = false ∧
    hpClaimBool (New ["a".data] []) "b".data = true := by decide

/-- Characterization of the loop of Filter.HasPrefix for a non-empty
include list: the loop (counting down from i) answers true iff some
examined ancestor (take j of the components, 1 <= j <= i) satisfies an
include pattern's HasPrefix while no exclude pattern fully matches that
ancestor or any deeper examined one. -/
theorem hpLoop_true_iff (f : Filter) (hne : f.incl ≠ []) (parts : List GoStr) :
    ∀ i, (hpLoop f parts i = true ↔
      ∃ j, 1 ≤ j ∧ j ≤ i ∧
        (∃ p ∈ f.incl, p.HasPrefix (joinSep (parts.take j)) = true) ∧
        ∀ j', j ≤ j' → j' ≤ i →
          ∀ q ∈ f.excl, q.Match (joinSep (parts.take j')) = false) := by
  intro i
  induction i with
  | zero =>
    simp only [hpLoop, Bool.false_eq_true, false_iff]
    rintro ⟨j, h1, h2, -, -⟩
    omega
  | succ i ih =>
    have hIsEmpty : f.incl.isEmpty = false := by
      cases hI : f.incl with
      | nil => exact absurd hI hne
      | cons a l => rfl
    by_cases hE : f.excl.any (fun q => q.Match (joinSep (parts.take (i + 1)))) = true
    · have hL : hpLoop f parts (i + 1) = false := by
        simp only [hpLoop, hE, if_true]
      rw [hL]
      simp only [Bool.false_eq_true, false_iff]
      rintro ⟨j, h1, hj, -, hNo⟩
      obtain ⟨q, hq, hqt⟩ := List.any_eq_true.mp hE
      exact absurd (hNo (i + 1) hj (le_refl _) q hq) (by simp [hqt])
    · have hEf : f.excl.any (fun q => q.Match (joinSep (parts.take (i + 1)))) = false :=
        Bool.not_eq_true _ ▸ eq_false_of_ne_true hE
      have hEall : ∀ q ∈ f.excl, q.Match (joinSep (parts.take (i + 1))) = false := by
        intro q hq
        have := List.any_eq_false.mp hEf q hq
        simpa using this
      by_cases hI : f.incl.any (fun p => p.HasPrefix (joinSep (parts.take (i + 1)))) = true
      · have hL : hpLoop f parts (i + 1) = true := by
          simp only [hpLoop, hEf, hIsEmpty, hI]
          rfl
        rw [hL]
        simp only [true_iff]
        obtain ⟨p, hp, hpt⟩ := List.any_eq_true.mp hI
        exact ⟨i + 1, by omega, le_refl _, ⟨p, hp, hpt⟩, by
          intro j' h1 h2 q hq
          have hj' : j' = i + 1 := by omega
          rw [hj']
          exact hEall q hq⟩
      · have hIf : ∀ p ∈ f.incl, p.HasPrefix (joinSep (parts.take (i + 1))) = false := by
          intro p hp
          have hIfalse : f.incl.any (fun p => p.HasPrefix (joinSep (parts.take (i + 1)))) = false :=
            Bool.not_eq_true _ ▸ eq_false_of_ne_true hI
          have := List.any_eq_false.mp hIfalse p hp
          simpa using this
        have hL : hpLoop f parts (i + 1) = hpLoop f parts i := by
          simp only [hpLoop, hEf, hIsEmpty]
          simp [hI]
        rw [hL, ih]
        constructor
        · rintro ⟨j, h1, hj, hInc, hNo⟩
          refine ⟨j, h1, by omega, hInc, ?_⟩
          intro j' hj1 hj2 q hq
          by_cases hcase : j' ≤ i
          · exact hNo j' hj1 hcase q hq
          · have : j' = i + 1 := by omega
            rw [this]
            exact hEall q hq
        · rintro ⟨j, h1, hj, hInc, hNo⟩
          have hjle : j ≤ i := by
            rcases Nat.lt_or_ge j (i + 1) with h | h
            · omega
            · have : j = i + 1 := by omega
              subst this
              obtain ⟨p, hp, hpt⟩ := hInc
              exact absurd hpt (by simp [hIf p hp])
          exact ⟨j, h1, hjle, hInc, fun j' hj1 hj2 q hq => hNo j' hj1 (by omega) q hq⟩

/-- C6 (amended): Filter.HasPrefix splits the prefix into components and
examines ancestor prefixes from the full prefix down to the FIRST COMPONENT
(never the empty prefix; an empty prefix argument itself splits into one
empty component); with an empty include list the result is true iff no
exclude fully matches the full prefix, and otherwise it is true iff some
examined ancestor satisfies an include pattern's HasPrefix while no exclude
pattern fully matches it or any deeper examined ancestor (a deeper exclude
match aborts the whole walk). -/
theorem hasPrefix_walk_characterization (f : Filter) (pre : GoStr) :
    Filter.HasPrefix (some f) pre = true ↔
      ((f.incl = [] ∧ ∀ q ∈ f.excl, q.Match pre = false) ∨
       (f.incl ≠ [] ∧ ∃ j, 1 ≤ j ∧ j ≤ (splitSep pre).length ∧
         (∃ p ∈ f.incl, p.HasPrefix (joinSep ((splitSep pre).take j)) = true) ∧
         ∀ j', j ≤ j' → j' ≤ (splitSep pre).length →
           ∀ q ∈ f.excl, q.Match (joinSep ((splitSep pre).take j')) = false)) := by
  have hHP : Filter.HasPrefix (some f) pre = hpLoop f (splitSep pre) (splitSep pre).length :=
    rfl
  have hjoin : joinSep ((splitSep pre).take (splitSep pre).length) = pre := by
    rw [List.take_length]
    exact joinSep_splitSep pre
  by_cases hIe : f.incl = []
  · obtain ⟨a, rest, hparts⟩ : ∃ a rest, splitSep pre = a :: rest := by
      cases h : splitSep pre with
      | nil => exact absurd h (splitChar_ne_nil '/' pre)
      | cons a rest => exact ⟨a, rest, rfl⟩
    have hlen : (splitSep pre).length = rest.length + 1 := by rw [hparts]; rfl
    rw [hHP, hlen]
    have hIsEmpty : f.incl.isEmpty = true := by simp [hIe]
    have htk : (splitSep pre).take (rest.length + 1) = splitSep pre := by
      rw [← hlen, List.take_length]
    have hstep : hpLoop f (splitSep pre) (rest.length + 1) =
        (if f.excl.any (fun q => q.Match pre) then false else true) := by
      simp only [hpLoop, htk, joinSep_splitSep pre, hIsEmpty]
      by_cases hE : f.excl.any (fun q => q.Match pre) = true
      · simp [hE]
      · simp [eq_false_of_ne_true hE]
    rw [hstep]
    by_cases hE : f.excl.any (fun q => q.Match pre) = true
    · obtain ⟨q, hq, hqt⟩ := List.any_eq_true.mp hE
      simp only [hE, if_true, Bool.false_eq_true, false_iff]
      rintro (⟨-, hNo⟩ | ⟨hcon, -⟩)
      · exact absurd (hNo q hq) (by simp [hqt])
      · exact hcon hIe
    · have hEf := eq_false_of_ne_true hE
      simp only [hEf, Bool.false_eq_true, if_false, true_iff]
      exact Or.inl ⟨hIe, fun q hq => by simpa using List.any_eq_false.mp hEf q hq⟩
  · rw [hHP, hpLoop_true_iff f hIe (splitSep pre) (splitSep pre).length]
    constructor
    · intro h
      exact Or.inr ⟨hIe, h⟩
    · rintro (⟨h0, -⟩ | ⟨-, h⟩)
      · exact absurd h0 hIe
      · exact h

/-!  Claim C7: Include()/Exclude() and the String() round trip. -/

/-- Counterexample to C7 as stated: patterns are cleaned at compile time, so
Include() returns the cleaned string, not the raw one. -/
theorem roundtrip_counterexample :
    Filter.Include (New ["./foo".data] []) = ["foo".data] ∧
    ("foo".data : GoStr) ≠ "./foo".data := by decide

/-- C7 (amended): Include()/Exclude() return each compiled pattern's
String(), which is the CLEANED pattern string (with, for the
pathful-wildcard variant, any list separator ':' replaced by the path
separator), so the round trip fails when cleaning changes a raw pattern;
a raw pattern that is already path-clean and contains no ':' keeps its
String() unchanged (a sufficient condition: the ':' restriction only
matters for the pathful-wildcard variant). -/
theorem include_exclude_strings :
    (∀ inc exc : List GoStr,
      Filter.Include (New inc exc) = inc.map (fun r => (NewPattern r).Str) ∧
      Filter.Exclude (New inc exc) = exc.map (fun r => (NewPattern r).Str)) ∧
    (∀ r : GoStr, clean r = r → ':' ∉ r → (NewPattern r).Str = r) := by
  constructor
  · intro inc exc
    constructor
    · simp [Filter.Include, New, convertToPatterns, patternsToStrings, List.map_map]
    · simp [Filter.Exclude, New, convertToPatterns, patternsToStrings, List.map_map]
  · intro r hcl hcolon
    have hrne : r ≠ [] := by
      intro h
      rw [h] at hcl
      exact absurd hcl (by decide)
    show (NewPattern r).Str = r
    simp only [NewPattern, hcl]
    split_ifs with h1 h2 h3 h4 h5 h6
    · rfl
    · simp only [Bool.and_eq_true, beq_iff_eq, decide_eq_true_eq] at h2
      obtain ⟨⟨-, hhead⟩, hdrop⟩ := h2
      cases r with
      | nil => exact absurd rfl hrne
      | cons a as =>
        have ha : a = '*' := by simpa using hhead
        have has : as = extGo (a :: as) := by simpa using hdrop
        subst ha
        show ('*' :: extGo ('*' :: as) : GoStr) = '*' :: as
        rw [← has]
    · rfl
    · rfl
    · show joinSep (splitList r) = r
      have hsp : splitList r = [r] := by
        rw [splitList, if_neg hrne]
        exact splitChar_of_not_mem ':' r hcolon
      rw [hsp]
      rfl
    · rfl
    · rfl

/-- Witness for C7 (amended): a clean pattern without list separators round
trips through NewPattern's String(). -/
theorem include_exclude_strings_witness :
    (NewPattern "a/b".data).Str = "a/b".data :=
  include_exclude_strings.2 "a/b".data (by decide) (by decide)

/-!  Claim C8: cleaning invariance of the query operations. -/

/-- Counterexample to C8 as stated: Filter.HasPrefix does NOT clean its
argument.  With exclude = ["a/b"], the uncleaned prefix "a//b" is not
matched by the exclude pattern (so the walk allows it), while its cleaned
form "a/b" is matched and refused. -/
theorem hasPrefix_clean_counterexample :
    Filter.HasPrefix (some (New [] ["a/b".data])) "a//b".data = true ∧
    clean "a//b".data = "a/b".data ∧
    Filter.HasPrefix (some (New [] ["a/b".data])) "a/b".data = false := by decide

/-- C8 (amended): AllowsPattern is invariant under cleaning its argument
(the path is cleaned before matching, and cleaning is idempotent);
HasPrefix, by contrast, never cleans its argument and the invariance fails
for it. -/
theorem allowsPattern_clean_invariant (f : Option Filter) (p : GoStr) :
    Filter.AllowsPattern f p = Filter.AllowsPattern f (clean p) := by
  cases f with
  | none => rfl
  | some f =>
    rw [allowsPattern_some, allowsPattern_some, clean_idem]

/-!  Claim C2: the pathful-wildcard component split. -/

/-- C2 evaluation: for the pattern sub/*.txt the code matches sub/a.txt and
rejects other/sub/a.txt, but it also MATCHES sub/dir/a.txt: the components
come from filepath.SplitList, which splits on the list separator ':', so the
whole path is a single component and the '*' spans the inner "dir/".  The
code's own comment says the split is on the path separator, which is what
the claim describes. -/
theorem pathful_wildcard_match_eval :
    (NewPattern "sub/*.txt".data).Match "sub/a.txt".data = true ∧
    (NewPattern "sub/*.txt".data).Match "other/sub/a.txt".data = false ∧
    (NewPattern "sub/*.txt".data).Match "sub/dir/a.txt".data = true ∧
    splitList "sub/*.txt".data = ["sub/*.txt".data] := by decide

/-!  Claim C3: HasPrefix of the wildcard variants. -/

/-- Counterexample to C3 as stated: the regex compiled for src/** has the
non-empty literal prefix "src/", and "docs" does not start with it, yet
HasPrefix("docs") is true: the boolean returned by LiteralPrefix is the
"complete" flag (false for every regex built here), so the early return
true is always taken and the literal-prefix comparison is dead code. -/
theorem wildcard_hasPrefix_literal_counterexample :
    (reLiteralPrefixC (starChunksD (clean "src/**".data))).1 = "src/".data ∧
    ("src/".data).isPrefixOf "docs".data = false ∧
    (NewPattern "src/**".data).HasPrefix "docs".data = true := by decide

/-- C3 (amended): for every double-wildcard and pathless-wildcard pattern,
HasPrefix returns true on every name (LiteralPrefix's boolean result is the
complete flag, never true for these anchored wildcard regexes, so the
literal-prefix test is unreachable). -/
theorem wildcard_hasPrefix_always_true (p name : GoStr) :
    (doubleWildcardPattern p).HasPrefix name = true ∧
    (pathlessWildcardPattern p).HasPrefix name = true :=
  ⟨rfl, rfl⟩

/-!  Claim C4: Filter.HasPrefix pruning under include = ["src/**"]. -/

/-- Counterexample to C4 as stated: the filter with include = ["src/**"]
answers true for HasPrefix("docs") as well (no pruning happens). -/
theorem filter_hasPrefix_docs_counterexample :
    Filter.HasPrefix (some (New ["src/**".data] [])) "docs".data = true := by decide

/-- C4 (amended): with include = ["src/**"] and no excludes, Filter.HasPrefix
returns true for EVERY prefix ("src" as the claim says, but also "docs"):
the double-wildcard pattern's HasPrefix is constantly true. -/
theorem filter_hasPrefix_src_doublestar (pre : GoStr) :
    Filter.HasPrefix (some (New ["src/**".data] [])) pre = true := by
  have hnp : ∀ x, (NewPattern "src/**".data).HasPrefix x = true := fun x => rfl
  show hpLoop (New ["src/**".data] []) (splitSep pre) (splitSep pre).length = true
  cases h : splitSep pre with
  | nil => exact absurd h (splitChar_ne_nil '/' pre)
  | cons a rest =>
    show hpLoop (New ["src/**".data] []) (a :: rest) (rest.length + 1) = true
    simp [hpLoop, New, convertToPatterns, hnp]

/-!  Claim C5: double-wildcard matching of **/a.txt. -/

/-- Counterexample to C5 as stated: the pattern **/a.txt does NOT match
a.txt: filepath.Match cannot match the literal '/' and the regex ^.*/a\.txt$
requires a '/' before a.txt, so at least one directory level is required. -/
theorem doublestar_root_counterexample :
    (NewPattern "**/a.txt".data).Match "a.txt".data = false := by decide

/-- C5 (amended): **/a.txt matches x/a.txt and x/y/a.txt but not a.txt (the
escaped ** becomes .* but the following literal '/' must still be present). -/
theorem doublestar_match_eval :
    (NewPattern "**/a.txt".data).Match "x/a.txt".data = true ∧
    (NewPattern "**/a.txt".data).Match "x/y/a.txt".data = true ∧
    (NewPattern "**/a.txt".data).Match "a.txt".data = false := by decide

/-!  Claim C9: simple-extension patterns. -/

/-- Cleaning fixes any separator-free component other than "", "." and
"..". -/
theorem clean_single (s : GoStr) (hs : '/' ∉ s) (h1 : s ≠ []) (h2 : s ≠ ['.'])
    (h3 : s ≠ ['.', '.']) : clean s = s := by
  have hsp : splitSep s = [s] := splitChar_of_not_mem '/' s hs
  have hhead : (s.head? == some '/') = false := by
    cases s with
    | nil => exact absurd rfl h1
    | cons a as =>
      have ha : a ≠ '/' := fun h => hs (h ▸ List.mem_cons_self a as)
      simp [ha]
  rw [clean_eq_unrooted s h1 hhead, hsp]
  have hcc : cleanComps false [s] = [s] := by
    simp only [cleanComps, List.foldl_cons, List.foldl_nil]
    rw [cleanStep_good false [] s ⟨h1, h2, h3, hs⟩]
    rfl
  rw [hcc, if_neg (by simp)]
  rfl

/-- Counterexample to C9 as stated: the raw pattern *.* is of the form
*<ext> with <ext> = Ext("*.*") = ".*" and holds no separator, but it is a
member of the local-directory set and compiles to the no-op matcher, so it
matches "foo", which does not end in ".*". -/
theorem simple_ext_star_dot_star_counterexample :
    ("*.*".data : GoStr) = '*' :: extGo "*.*".data ∧
    ('/' ∈ ("*.*".data : GoStr)) = False ∧
    (NewPattern "*.*".data).Match "foo".data = true ∧
    (extGo "*.*".data).isSuffixOf "foo".data = false := by
  refine ⟨by decide, by simp, by decide, by decide⟩

/-- C9 (amended): for every separator-free raw pattern of the form *<ext>
(with <ext> the pattern's file extension) OTHER than *.* (which is in the
local-directory set and matches everything), Match is exactly the
ends-with-<ext> test and HasPrefix is constantly true; the *.txt examples of
the claim hold as stated. -/
theorem simple_ext_semantics :
    (∀ raw : GoStr, raw = '*' :: extGo raw → '/' ∉ raw → raw ≠ ['*', '.', '*'] →
      ∀ name, (NewPattern raw).Match name = (extGo raw).isSuffixOf name ∧
        (NewPattern raw).HasPrefix name = true) ∧
    ((NewPattern "*.txt".data).Match "a.txt".data = true ∧
     (NewPattern "*.txt".data).Match "dir/a.txt".data = true ∧
     (NewPattern "*.txt".data).Match "dir/sub/a.txt".data = true ∧
     (NewPattern "*.txt".data).Match "a.txtx".data = false ∧
     (NewPattern "*.txt".data).Match "a.tx".data = false) := by
  constructor
  · intro raw hform hsep hne name
    by_cases hext : extGo raw = []
    · have hstar : raw = ['*'] := by rw [hform, hext]
      subst hstar
      constructor
      · show true = List.isSuffixOf (extGo ['*']) name
        rw [hext]
        simp [List.isSuffixOf]
      · rfl
    · have hclean : clean raw = raw := by
        refine clean_single raw hsep ?_ ?_ ?_
        · intro h
          rw [h] at hform
          exact absurd hform (by simp)
        · intro h
          rw [h] at hform
          exact absurd hform (by decide)
        · intro h
          rw [h] at hform
          exact absurd hform (by decide)
      have hlocN : raw ∉ localDirSet := by
        intro hmem
        simp only [localDirSet, List.mem_cons, List.not_mem_nil, or_false] at hmem
        rcases hmem with h | h | h | h | h
        · rw [h] at hext
          exact hext (by decide)
        · exact hne h
        · rw [h] at hform
          exact absurd hform (by decide)
        · rw [h] at hform
          exact absurd hform (by decide)
        · rw [h] at hform
          exact absurd hform (by decide)
      have hlen : 1 < raw.length := by
        rw [hform]
        cases hx : extGo raw with
        | nil => exact absurd hx hext
        | cons b bs => simp
      have hcont : containsChar raw '/' = false := by
        simpa [containsChar] using hsep
      have hhead : raw.head? = some '*' := by rw [hform]; rfl
      have hdrop : raw.drop 1 = extGo raw := by
        conv_lhs => rw [hform]
        rfl
      have hcond : (decide (raw.length > 1) && !containsChar raw '/' &&
          (raw.head? == some '*') && (raw.drop 1 == extGo raw)) = true := by
        simp [hlen, hcont, hhead, hdrop]
      have hNP : NewPattern raw = simpleExtPattern (extGo raw) := by
        simp only [NewPattern, hclean]
        rw [if_neg (by simpa using hlocN), if_pos hcond]
      rw [hNP]
      exact ⟨rfl, rfl⟩
  · refine ⟨by decide, by decide, by decide, by decide, by decide⟩

/-- Witness for C9 (amended): instantiation at the raw pattern *.txt and
the name dir/a.txt. -/
theorem simple_ext_semantics_witness :
    (NewPattern "*.txt".data).Match "dir/a.txt".data =
      (extGo "*.txt".data).isSuffixOf "dir/a.txt".data ∧
    (NewPattern "*.txt".data).HasPrefix "dir/a.txt".data = true :=
  simple_ext_semantics.1 "*.txt".data (by decide) (by decide) (by decide)
    "dir/a.txt".data

/-!  Claim C10: the empty raw pattern. -/

/-- C10: NewPattern("") cleans the empty string to ".", which is in the
local-directory set, so the empty pattern compiles to the no-op matcher:
String() is ".", and Match and HasPrefix hold for every name; consequently a
Filter whose include list contains the empty string allows every path whose
cleaned form no exclude pattern matches. -/
theorem empty_pattern_noop :
    ((NewPattern ([] : GoStr)).Str = ['.']) ∧
    (∀ name, (NewPattern ([] : GoStr)).Match name = true ∧
      (NewPattern ([] : GoStr)).HasPrefix name = true) ∧
    (∀ (inc exc : List GoStr) (name : GoStr), ([] : GoStr) ∈ inc →
      (∀ q ∈ exc.map NewPattern, q.Match (clean name) = false) →
      Filter.Allows (some (New inc exc)) name = true) := by
  refine ⟨rfl, fun name => ⟨rfl, rfl⟩, ?_⟩
  intro inc exc name hmem hexcl
  have hmm : NewPattern [] ∈ (New inc exc).incl := List.mem_map_of_mem NewPattern hmem
  have hne : (New inc exc).incl ≠ [] := by
    intro h
    rw [h] at hmm
    exact absurd hmm (List.not_mem_nil _)
  have hpos : 0 < (New inc exc).incl.length := List.length_pos.mpr hne
  have hfindSome : ((New inc exc).incl.find? (fun p => p.Match (clean name))).isSome := by
    rw [List.find?_isSome]
    exact ⟨NewPattern [], hmm, rfl⟩
  obtain ⟨inc0, hfi⟩ := Option.isSome_iff_exists.mp hfindSome
  have hfe : (New inc exc).excl.find? (fun p => p.Match (clean name)) = none :=
    List.find?_eq_none.mpr (fun x hx => by simp [hexcl x hx])
  show (Filter.AllowsPattern (some (New inc exc)) name).2 = true
  rw [allowsPattern_some, if_neg (by omega), if_pos hpos, hfi, hfe]

/-- Witness for C10: a filter whose include list is the empty pattern and
with no excludes allows a concrete path. -/
theorem empty_pattern_noop_witness :
    Filter.Allows (some (New [([] : GoStr)] [])) "x".data = true :=
  empty_pattern_noop.2.2 [([] : GoStr)] [] "x".data (by simp) (by simp)

end FilePathFilter
